import Mathlib

/-!
Verification of the TF-binding model engine (`binding_model.py` of the CGB
repository): PWM combination, PSSM derivation, double-stranded sequence
scoring, and the Bayesian posterior estimator.

Python runtime failures (assertions, dict `KeyError`, list `IndexError`,
`ZeroDivisionError`, attribute lookup failure) are embedded with `Except`
over an explicit error type.  Rational matrix entries are `ℚ`; scores and
probabilities are `ℝ`.
-/

/-- The Python runtime failures that the embedded operations can raise. -/
inductive PyErr where
  | assertionError
  | keyError
  | indexError
  | zeroDivisionError
  | attributeError
deriving DecidableEq

/-- A position-weight matrix as the external motif library stores it: an
alphabet, a motif length, and a dict from symbol to the column list of
weights (one rational per position). -/
structure PWM where
  alphabet : List Char
  length : Nat
  matrix : List (Char × List ℚ)
deriving DecidableEq

/-- Python dict lookup on an association list: first entry whose key
matches, `none` on a missing key (a `KeyError` at the call sites). -/
def dget {β : Type} : List (Char × β) → Char → Option β
  | [], _ => none
  | e :: t, c => if e.1 = c then some e.2 else dget t c

/-- Total reading of `matrix[c][i]` (the value Python reads when the key and
the index are present; defaults are never reached under well-formedness). -/
def colVal (mat : List (Char × List ℚ)) (c : Char) (i : Nat) : ℚ :=
  ((dget mat c).getD []).getD i 0

/-- Well-formedness invariant the external matrix constructor maintains:
the dict keys are exactly the alphabet (no duplicate letters) and every
column has the motif length. -/
abbrev PWM.WF (p : PWM) : Prop :=
  p.matrix.map Prod.fst = p.alphabet ∧ p.alphabet.Nodup ∧
    ∀ e ∈ p.matrix, e.2.length = p.length

/-- `BindingModel._combine_pwms(pwms, weights)`.  Reads `pwms[0]` (an
`IndexError` on an empty list), asserts equal lengths and equal alphabets,
normalizes the weights by their sum (a `ZeroDivisionError` when the list is
non-empty and sums to zero; an empty weight list never divides), and builds
`{let: [sum(pwm[let][i]*w for pwm, w in zip(pwms, weights)) for i in
range(len)] for let in alphabet.letters}`. -/
def combine_pwms (pwms : List PWM) (weights : List ℚ) : Except PyErr PWM :=
  match pwms with
  | [] => .error .indexError
  | p0 :: _ =>
    let len := p0.length
    let alphabet := p0.alphabet
    if pwms.all (fun p => p.length == len) then
      if pwms.all (fun p => p.alphabet == alphabet) then
        if weights ≠ [] ∧ weights.sum = 0 then .error .zeroDivisionError
        else
          let nweights := weights.map (fun w => w / weights.sum)
          .ok { alphabet := alphabet, length := len,
                matrix := alphabet.map (fun c =>
                  (c, (List.range len).map (fun i =>
                    ((pwms.zip nweights).map
                      (fun pw => colVal pw.1.matrix c i * pw.2)).sum))) }
      else .error .assertionError
    else .error .assertionError

/-- An external collection object: exposes its own PWM and its aligned
binding-site strings. -/
structure Collection where
  pwm : PWM
  sites : List (List Char)

/-- The TF-binding model: background distribution, the combined PWM, and the
input collection set, as set by `BindingModel.__init__`. -/
structure BindingModel where
  background : Char → ℚ
  pwm : PWM
  collection_set : List Collection

/-- `BindingModel.__init__(collections, weights, background)`: stores the
background, combines the collections' PWMs, and keeps the collection set. -/
def BindingModel.init (collections : List Collection) (weights : List ℚ)
    (background : Char → ℚ) : Except PyErr BindingModel :=
  (combine_pwms (collections.map (fun c => c.pwm)) weights).map
    (fun p => { background := background, pwm := p, collection_set := collections })

/-- `BindingModel.length`: the length of the combined PWM. -/
def BindingModel.length (m : BindingModel) : Nat := m.pwm.length

/-- Modelled from the spec: `misc.log2`, the base-2 logarithm helper the
repository imports but whose module is not in the sources. -/
noncomputable def log2 (x : ℝ) : ℝ := Real.logb 2 x

/-- Modelled from the spec: the external matrix library's log-odds
conversion used by `BindingModel.pssm` — for every symbol and position,
`pssm[sym][pos] = log2(pwm[sym][pos] / background[sym])`. -/
noncomputable def BindingModel.pssmMatrix (m : BindingModel) : List (Char × List ℝ) :=
  m.pwm.alphabet.map (fun c =>
    (c, ((dget m.pwm.matrix c).getD []).map
      (fun (v : ℚ) => log2 ((v : ℝ) / (m.background c : ℝ)))))

/-- Total reading of the PSSM entry at symbol `c`, position `i`. -/
noncomputable def BindingModel.pssmVal (m : BindingModel) (c : Char) (i : Nat) : ℝ :=
  log2 ((colVal m.pwm.matrix c i : ℝ) / (m.background c : ℝ))

/-- `self.pssm[c][i]` as Python evaluates it: a dict lookup (`KeyError` on a
symbol outside the matrix) followed by a list access (`IndexError` out of
range). -/
noncomputable def BindingModel.pssmAt (m : BindingModel) (c : Char) (i : Nat) : Except PyErr ℝ :=
  match dget m.pssmMatrix c with
  | none => .error .keyError
  | some col =>
    match col.get? i with
    | none => .error .indexError
    | some v => .ok v

/-- Modelled from the spec: `BindingModel.IC` calls `.mean()` of the external
matrix library on the PSSM, described as the arithmetic mean of all PSSM
values flattened over symbol × position. -/
noncomputable def BindingModel.IC (m : BindingModel) : ℝ :=
  let vals := (m.pssmMatrix.map Prod.snd).flatten
  vals.sum / vals.length

/-- Modelled from the spec: `bio_utils.complement` on one symbol — the DNA
complement A↔T, C↔G over the alphabet {A,C,G,T}; any other symbol is a
lookup failure (`KeyError`). -/
def complChar (c : Char) : Except PyErr Char :=
  if c = 'A' then .ok 'T'
  else if c = 'T' then .ok 'A'
  else if c = 'C' then .ok 'G'
  else if c = 'G' then .ok 'C'
  else .error .keyError

/-- Total twin of `complChar` used in statements (identity off {A,C,G,T}). -/
def complD (c : Char) : Char :=
  if c = 'A' then 'T'
  else if c = 'T' then 'A'
  else if c = 'C' then 'G'
  else if c = 'G' then 'C'
  else c

/-- Effectful map: Python list construction that stops at the first raised
error (list comprehensions and `sum` over a generator). -/
def mapExcept {α β : Type} (f : α → Except PyErr β) : List α → Except PyErr (List β)
  | [] => .ok []
  | a :: l => (f a).bind (fun b => (mapExcept f l).map (fun bs => b :: bs))

/-- `seq[i]` on a Python string: `IndexError` out of range. -/
def charAt (seq : List Char) (i : Nat) : Except PyErr Char :=
  match seq.get? i with
  | none => .error .indexError
  | some c => .ok c

/-- `BindingModel.score_seq(seq)`: asserts `self.length == len(seq)`, builds
`complement_seq = bio_utils.complement(seq)` (symbol-wise, not reversed), and
sums `misc.log2(2**pssm[seq[i]][i] + 2**pssm[complement_seq[i]][i])` over
`i in range(len(seq))`. -/
noncomputable def score_seq (m : BindingModel) (seq : List Char) : Except PyErr ℝ :=
  if m.length = seq.length then
    (mapExcept complChar seq).bind (fun complement_seq =>
      (mapExcept (fun i =>
        (charAt seq i).bind (fun a =>
          (charAt complement_seq i).bind (fun b =>
            (m.pssmAt a i).bind (fun sa =>
              (m.pssmAt b i).map (fun sb =>
                log2 ((2 : ℝ) ^ sa + (2 : ℝ) ^ sb))))))
        (List.range seq.length)).map List.sum)
  else .error .assertionError

/-- `BindingModel.sites`: all site strings of all collections, in collection
order then site order. -/
def BindingModel.sites (m : BindingModel) : List (List Char) :=
  (m.collection_set.map Collection.sites).flatten

/-- `BindingModel.self_score`: the list of `score_seq` values of the model's
own sites. -/
noncomputable def BindingModel.self_score (m : BindingModel) : Except PyErr (List ℝ) :=
  mapExcept (score_seq m) m.sites

/-- `np.mean` of a list of floats. -/
noncomputable def listMean (l : List ℝ) : ℝ := l.sum / l.length

/-- `np.std` of a list of floats (population standard deviation). -/
noncomputable def listStd (l : List ℝ) : ℝ :=
  Real.sqrt ((l.map (fun x => (x - listMean l) ^ 2)).sum / l.length)

/-- `scipy.stats.distributions.norm(mu, sd).pdf` at `x`. -/
noncomputable def normPdf (mu sd x : ℝ) : ℝ :=
  Real.exp (-((x - mu) ^ 2) / (2 * sd ^ 2)) / (sd * Real.sqrt (2 * Real.pi))

/-- The `lh_ratio` closure of `bayesian_estimator`:
`np.exp(np.sum(np.log(lh_g(scores)) - np.log(lh_m(scores))))` with
`lh_g = pdf_g` and `lh_m = alpha*pdf_m + (1-alpha)*pdf_g`. -/
noncomputable def lh_ratio_fn (alpha mu_m std_m mu_g std_g : ℝ) (scores : List ℝ) : ℝ :=
  Real.exp ((scores.map (fun s =>
    Real.log (normPdf mu_g std_g s) -
      Real.log (alpha * normPdf mu_m std_m s +
        (1 - alpha) * normPdf mu_g std_g s))).sum)

/-- The estimator closure `bayesian_estimator` returns:
`lambda scores: 1 / (1 + lh_ratio(scores) * prior_m / prior_g)` with
`prior_g = 1 - prior_m`. -/
noncomputable def estimator_fun (alpha mu_m std_m mu_g std_g prior_m : ℝ)
    (scores : List ℝ) : ℝ :=
  1 / (1 + lh_ratio_fn alpha mu_m std_m mu_g std_g scores * prior_m / (1 - prior_m))

/-- The attribute names the `BindingModel` class body and `__init__` define;
Python attribute lookup on an instance resolves against these. -/
def bindingModelAttrNames : List String :=
  ["_background", "_pwm", "_collection_set",
   "pwm", "length", "pssm", "background", "IC", "patser_threshold", "sites",
   "score_seq", "self_score", "bayesian_estimator", "_combine_pwms"]

/-- `BindingModel.bayesian_estimator(bg_scores, prior_m, alpha)`: its first
statement evaluates `self.score_self()`, an attribute lookup on the class
(`AttributeError` when absent); on success it would fit `(mu_m, std_m)` on
the site self-scores and `(mu_g, std_g)` on `bg_scores` and return the
estimator closure. -/
noncomputable def bayesian_estimator (m : BindingModel) (bg_scores : List ℝ)
    (prior_m alpha : ℝ) : Except PyErr (List ℝ → ℝ) :=
  if "score_self" ∈ bindingModelAttrNames then
    (m.self_score).map (fun pssm_scores =>
      estimator_fun alpha (listMean pssm_scores) (listStd pssm_scores)
        (listMean bg_scores) (listStd bg_scores) prior_m)
  else .error .attributeError

/-- A concrete uniform PWM of length 4 over {A,C,G,T}. -/
def uniformPWM : PWM :=
  { alphabet := ['A', 'C', 'G', 'T'],
    length := 4,
    matrix := [('A', [1/4, 1/4, 1/4, 1/4]), ('C', [1/4, 1/4, 1/4, 1/4]),
               ('G', [1/4, 1/4, 1/4, 1/4]), ('T', [1/4, 1/4, 1/4, 1/4])] }

/-- A concrete collection holding the uniform PWM and one site. -/
def uniformColl : Collection :=
  { pwm := uniformPWM, sites := [['A', 'C', 'G', 'T']] }

/-- A concrete model built on the uniform PWM and uniform background. -/
def uniformModel : BindingModel :=
  { background := fun _ => 1/4, pwm := uniformPWM, collection_set := [uniformColl] }

/-! ### Basic facts about the `Except` embedding -/

theorem except_bind_ok {α β : Type} (v : α) (f : α → Except PyErr β) :
    (Except.ok v).bind f = f v := rfl

theorem except_bind_err {α β : Type} (e : PyErr) (f : α → Except PyErr β) :
    (Except.error e : Except PyErr α).bind f = .error e := rfl

theorem except_map_ok {α β : Type} (g : α → β) (v : α) :
    (Except.ok v : Except PyErr α).map g = .ok (g v) := rfl

theorem except_map_err {α β : Type} (g : α → β) (e : PyErr) :
    (Except.error e : Except PyErr α).map g = .error e := rfl

theorem except_bind_error {α β : Type} {x : Except PyErr α}
    {f : α → Except PyErr β} {e : PyErr} (h : x.bind f = .error e) :
    x = .error e ∨ ∃ v, x = .ok v ∧ f v = .error e := by
  cases x with
  | error e2 => rw [except_bind_err] at h; cases h; exact Or.inl rfl
  | ok v => exact Or.inr ⟨v, rfl, h⟩

theorem except_map_error {α β : Type} {x : Except PyErr α} {g : α → β}
    {e : PyErr} (h : x.map g = .error e) : x = .error e := by
  cases x with
  | error e2 => rw [except_map_err] at h; cases h; rfl
  | ok v => cases h

theorem mapExcept_ok {α β : Type} {f : α → Except PyErr β} {g : α → β} :
    ∀ {l : List α}, (∀ x ∈ l, f x = .ok (g x)) →
      mapExcept f l = .ok (l.map g) := by
  intro l
  induction l with
  | nil => intro _; rfl
  | cons a t ih =>
    intro h
    have ha := h a (List.mem_cons_self a t)
    have ht := ih (fun x hx => h x (List.mem_cons_of_mem a hx))
    simp [mapExcept, ha, ht, except_bind_ok, except_map_ok]

theorem mapExcept_error_pred {α β : Type} {f : α → Except PyErr β}
    {P : PyErr → Prop} (hf : ∀ x e, f x = .error e → P e) :
    ∀ {l : List α} {e : PyErr}, mapExcept f l = .error e → P e := by
  intro l
  induction l with
  | nil => intro e h; cases h
  | cons a t ih =>
    intro e h
    rw [show mapExcept f (a :: t) =
        (f a).bind (fun b => (mapExcept f t).map (fun bs => b :: bs)) from rfl] at h
    rcases except_bind_error h with h1 | ⟨v, _, h2⟩
    · exact hf a e h1
    · exact ih (except_map_error h2)

theorem mapExcept_error_mem {α β : Type} {f : α → Except PyErr β} {E : PyErr}
    (hall : ∀ x e, f x = .error e → e = E) :
    ∀ {l : List α} {x : α}, x ∈ l → f x = .error E → mapExcept f l = .error E := by
  intro l
  induction l with
  | nil => intro x hx; cases hx
  | cons a t ih =>
    intro x hx hfx
    cases hfa : f a with
    | error e2 =>
      have he : e2 = E := hall a e2 hfa
      subst he
      simp [mapExcept, hfa, except_bind_err]
    | ok b =>
      have hxt : x ∈ t := by
        rcases List.mem_cons.mp hx with h | h
        · subst h; rw [hfa] at hfx; cases hfx
        · exact h
      simp [mapExcept, hfa, except_bind_ok, ih hxt hfx, except_map_err]

theorem complChar_error {c : Char} {e : PyErr}
    (h : complChar c = .error e) : e = .keyError := by
  unfold complChar at h
  split_ifs at h <;> cases h <;> rfl

theorem charAt_error {seq : List Char} {i : Nat} {e : PyErr}
    (h : charAt seq i = .error e) : e = .indexError := by
  unfold charAt at h
  cases hq : seq.get? i <;> rw [hq] at h <;> cases h
  rfl

theorem pssmAt_error {m : BindingModel} {c : Char} {i : Nat} {e : PyErr}
    (h : m.pssmAt c i = .error e) : e = .keyError ∨ e = .indexError := by
  unfold BindingModel.pssmAt at h
  split at h
  · cases h; exact Or.inl rfl
  · split at h
    · cases h; exact Or.inr rfl
    · cases h

/-- C7: `score_seq` raises the fatal assertion failure exactly when the
sequence length differs from the model's combined PWM length; when the
lengths are equal the assertion passes (any later failure is a lookup or
index error, never the assertion). -/
theorem score_seq_assertion_iff (m : BindingModel) (seq : List Char) :
    score_seq m seq = .error .assertionError ↔ m.length ≠ seq.length := by
  constructor
  · intro h hlen
    rw [score_seq, if_pos hlen] at h
    rcases except_bind_error h with h1 | ⟨cs, _, h2⟩
    · have : PyErr.assertionError = PyErr.keyError :=
        mapExcept_error_pred (fun x e he => complChar_error he) h1
      cases this
    · have h3 := except_map_error h2
      have hne : PyErr.assertionError ≠ PyErr.assertionError := by
        refine mapExcept_error_pred (P := (· ≠ PyErr.assertionError)) ?_ h3
        intro i e he
        rcases except_bind_error he with ha | ⟨a, _, hb⟩
        · simp [charAt_error ha]
        · rcases except_bind_error hb with hc | ⟨b, _, hd⟩
          · simp [charAt_error hc]
          · rcases except_bind_error hd with hp | ⟨sa, _, hm⟩
            · rcases pssmAt_error hp with hk | hk <;> simp [hk]
            · rcases pssmAt_error (except_map_error hm) with hk | hk <;> simp [hk]
      exact hne rfl
  · intro hne
    rw [score_seq, if_neg hne]

/-- C10: with the length precondition satisfied but a symbol outside
{A,C,G,T} in the sequence, `score_seq` passes the length assertion and then
fails with a lookup (key) error instead of returning a score. -/
theorem score_seq_bad_symbol_keyError (m : BindingModel) (seq : List Char)
    (hlen : m.length = seq.length) (c : Char) (hc : c ∈ seq)
    (hbad : c ∉ (['A', 'C', 'G', 'T'] : List Char)) :
    score_seq m seq = .error .keyError := by
  rw [score_seq, if_pos hlen]
  have hbad4 : c ≠ 'A' ∧ c ≠ 'C' ∧ c ≠ 'G' ∧ c ≠ 'T' := by
    simpa [List.mem_cons, not_or] using hbad
  have hcc : complChar c = .error .keyError := by
    unfold complChar
    rw [if_neg hbad4.1, if_neg hbad4.2.2.2, if_neg hbad4.2.1, if_neg hbad4.2.2.1]
  have hmE : mapExcept complChar seq = .error .keyError :=
    mapExcept_error_mem (fun x e he => complChar_error he) hc hcc
  rw [hmE, except_bind_err]

/-- C10 witness: the length-4 uniform model on the sequence `ACXT`. -/
theorem score_seq_bad_symbol_keyError_witness :
    score_seq uniformModel ['A', 'C', 'X', 'T'] = .error .keyError :=
  score_seq_bad_symbol_keyError uniformModel ['A', 'C', 'X', 'T'] (by decide)
    'X' (by decide) (by decide)

/-- C1: calling `bayesian_estimator` never reaches the Gaussian fitting
step — its first statement looks up `self.score_self()`, but the class
defines the method under the name `self_score`, so the call raises an
attribute lookup failure instead of computing the site self-scores. -/
theorem bayesian_estimator_attribute_failure :
    bayesian_estimator uniformModel [0] (1/2) (1/350) = .error .attributeError := by
  rw [bayesian_estimator, if_neg (by decide)]

/-- C2: the estimator closure the code builds is `1 / (1 + lh_ratio *
prior_m / (1 - prior_m))`, which strictly DECREASES as `prior_m` grows:
with any fitted parameters and the empty score vector (likelihood ratio
`exp 0 = 1`), raising the prior from 1/2 to 2/3 drops the output from 1/2
to 1/3, refuting the claimed monotone non-decrease. -/
theorem estimator_output_decreases_in_prior :
    estimator_fun (1/350) 0 1 0 1 (2/3) [] <
      estimator_fun (1/350) 0 1 0 1 (1/2) [] := by
  unfold estimator_fun lh_ratio_fn
  norm_num [Real.exp_zero]

/-! ### Dict and list lemmas for the combination engine -/

/-- The column a dict lookup returns (empty on a missing key). -/
def dcol (mat : List (Char × List ℚ)) (c : Char) : List ℚ :=
  (dget mat c).getD []

theorem colVal_eq_dcol (mat : List (Char × List ℚ)) (c : Char) (i : Nat) :
    colVal mat c i = (dcol mat c).getD i 0 := rfl

theorem dget_map_self {β : Type} (F : Char → β) :
    ∀ {A : List Char} {c : Char}, c ∈ A →
      dget (A.map (fun a => (a, F a))) c = some (F c) := by
  intro A
  induction A with
  | nil => intro c hc; cases hc
  | cons a t ih =>
    intro c hc
    by_cases hac : a = c
    · subst hac; simp [dget]
    · rcases List.mem_cons.mp hc with h | h
      · exact absurd h.symm hac
      · simp only [List.map_cons, dget, if_neg hac]
        exact ih h

theorem dget_mem {β : Type} :
    ∀ {mat : List (Char × β)} {c : Char} {v : β},
      dget mat c = some v → (c, v) ∈ mat := by
  intro mat
  induction mat with
  | nil => intro c v h; cases h
  | cons e t ih =>
    intro c v h
    rw [dget] at h
    by_cases he : e.1 = c
    · rw [if_pos he] at h
      cases h
      subst he
      exact List.mem_cons_self _ _
    · rw [if_neg he] at h
      exact List.mem_cons_of_mem e (ih h)

theorem dget_exists {β : Type} :
    ∀ {mat : List (Char × β)} {c : Char}, c ∈ mat.map Prod.fst →
      ∃ v, dget mat c = some v := by
  intro mat
  induction mat with
  | nil => intro c hc; cases hc
  | cons e t ih =>
    intro c hc
    by_cases he : e.1 = c
    · exact ⟨e.2, by rw [dget, if_pos he]⟩
    · rcases List.mem_cons.mp hc with h | h
      · exact absurd h.symm he
      · obtain ⟨v, hv⟩ := ih h
        exact ⟨v, by rw [dget, if_neg he]; exact hv⟩

theorem WF_dcol_length {p : PWM} (hWF : p.WF) {c : Char}
    (hc : c ∈ p.alphabet) : (dcol p.matrix c).length = p.length := by
  obtain ⟨hk, _, hlen⟩ := hWF
  obtain ⟨v, hv⟩ := dget_exists (c := c) (by rw [hk]; exact hc)
  rw [dcol, hv, Option.getD_some]
  exact hlen (c, v) (dget_mem hv)

theorem map_dcol_eq_self :
    ∀ {mat : List (Char × List ℚ)} {A : List Char},
      mat.map Prod.fst = A → A.Nodup →
      A.map (fun c => (c, dcol mat c)) = mat := by
  intro mat
  induction mat with
  | nil => intro A hk _; subst hk; rfl
  | cons e t ih =>
    intro A hk hnd
    subst hk
    obtain ⟨hk1, hk2⟩ := List.nodup_cons.mp hnd
    have hhead : dcol (e :: t) e.1 = e.2 := by simp [dcol, dget]
    have htail : (t.map Prod.fst).map (fun c => (c, dcol (e :: t) c)) =
        (t.map Prod.fst).map (fun c => (c, dcol t c)) := by
      apply List.map_congr_left
      intro c hc
      have hne : e.1 ≠ c := fun h => hk1 (h ▸ hc)
      simp [dcol, dget, hne]
    simp only [List.map_cons]
    rw [htail, ih rfl hk2, hhead]

theorem map_range_getD {α : Type} (f : Nat → α) (d : α) {i n : Nat}
    (h : i < n) : ((List.range n).map f).getD i d = f i := by
  rw [List.getD_eq_getElem?_getD, List.getElem?_map, List.getElem?_range h]
  rfl

theorem range_map_getD {α : Type} (d : α) :
    ∀ (l : List α), (List.range l.length).map (fun i => l.getD i d) = l := by
  intro l
  induction l with
  | nil => rfl
  | cons a t ih =>
    rw [List.length_cons, List.range_succ_eq_map, List.map_cons, List.map_map]
    rw [show ((fun i => (a :: t).getD i d) ∘ Nat.succ) =
        (fun i => t.getD i d) from funext fun i => rfl]
    rw [ih]
    rfl

theorem zip_map_norm (pwms : List PWM) (weights : List ℚ) (S : ℚ)
    (s : Char) (i : Nat) :
    (pwms.zip (weights.map (fun w => w / S))).map
        (fun pw => colVal pw.1.matrix s i * pw.2) =
      (pwms.zip weights).map
        (fun pw => colVal pw.1.matrix s i * (pw.2 / S)) := by
  rw [List.zip_map_right, List.map_map]
  rfl

theorem zip_const_left (q : PWM) :
    ∀ {pwms : List PWM} {ws : List ℚ},
      (∀ p ∈ pwms, p = q) → pwms.length = ws.length →
      pwms.zip ws = ws.map (fun w => (q, w)) := by
  intro pwms
  induction pwms with
  | nil =>
    intro ws _ hlen
    cases ws with
    | nil => rfl
    | cons w tw => cases hlen
  | cons p t ih =>
    intro ws h hlen
    cases ws with
    | nil => cases hlen
    | cons w tw =>
      have hp : p = q := h p (List.mem_cons_self _ _)
      have ht := ih (fun x hx => h x (List.mem_cons_of_mem p hx))
        (Nat.succ.inj hlen)
      simp only [List.zip_cons_cons, List.map_cons, hp, ht]

theorem sum_map_div (l : List ℚ) (S : ℚ) :
    (l.map (fun w => w / S)).sum = l.sum / S := by
  induction l with
  | nil => simp
  | cons a t ih => simp [ih, add_div]

/-! ### C3, C4, C8: the combination engine -/

/-- C3: on a non-empty list of PWMs of one length `L` and one alphabet `A`
with a matching weight list of nonzero sum, `_combine_pwms` returns a PWM of
length `L` over `A` whose every entry is the weight-normalized convex
combination of the inputs' entries; and combining copies of one well-formed
PWM under any such weights returns that PWM unchanged. -/
theorem combine_pwms_convex (pwms : List PWM) (weights : List ℚ) (L : Nat)
    (A : List Char) (hne : pwms ≠ [])
    (hlen : ∀ p ∈ pwms, p.length = L)
    (halph : ∀ p ∈ pwms, p.alphabet = A)
    (hwlen : weights.length = pwms.length)
    (hsum : weights.sum ≠ 0) :
    (∃ c, combine_pwms pwms weights = .ok c ∧ c.length = L ∧ c.alphabet = A ∧
      ∀ s ∈ A, ∀ i < L, colVal c.matrix s i =
        ((pwms.zip weights).map
          (fun pw => colVal pw.1.matrix s i * (pw.2 / weights.sum))).sum) ∧
    (∀ q : PWM, q.WF → (∀ p ∈ pwms, p = q) →
      combine_pwms pwms weights = .ok q) := by
  obtain ⟨p0, rest, rfl⟩ : ∃ p0 rest, pwms = p0 :: rest := by
    cases pwms with
    | nil => exact absurd rfl hne
    | cons p0 rest => exact ⟨p0, rest, rfl⟩
  have hp0 : p0 ∈ p0 :: rest := List.mem_cons_self _ _
  have hL0 : p0.length = L := hlen p0 hp0
  have hA0 : p0.alphabet = A := halph p0 hp0
  have hall1 : (p0 :: rest).all (fun p => p.length == p0.length) = true := by
    rw [List.all_eq_true]
    intro p hp
    exact beq_iff_eq.mpr ((hlen p hp).trans hL0.symm)
  have hall2 : (p0 :: rest).all (fun p => p.alphabet == p0.alphabet) = true := by
    rw [List.all_eq_true]
    intro p hp
    exact beq_iff_eq.mpr ((halph p hp).trans hA0.symm)
  have hc3 : ¬(weights ≠ [] ∧ weights.sum = 0) := fun hc => hsum hc.2
  have hok : combine_pwms (p0 :: rest) weights =
      .ok { alphabet := p0.alphabet, length := p0.length,
            matrix := p0.alphabet.map (fun c =>
              (c, (List.range p0.length).map (fun i =>
                (((p0 :: rest).zip
                    (weights.map (fun w => w / weights.sum))).map
                  (fun pw => colVal pw.1.matrix c i * pw.2)).sum))) } := by
    simp only [combine_pwms]
    rw [if_pos hall1, if_pos hall2, if_neg hc3]
  constructor
  · refine ⟨_, hok, hL0, hA0, ?_⟩
    intro s hs i hi
    rw [colVal_eq_dcol]
    have hdg : dcol (p0.alphabet.map (fun c =>
        (c, (List.range p0.length).map (fun j =>
          (((p0 :: rest).zip (weights.map (fun w => w / weights.sum))).map
            (fun pw => colVal pw.1.matrix c j * pw.2)).sum)))) s =
        (List.range p0.length).map (fun j =>
          (((p0 :: rest).zip (weights.map (fun w => w / weights.sum))).map
            (fun pw => colVal pw.1.matrix s j * pw.2)).sum) := by
      rw [dcol, dget_map_self _ (hA0 ▸ hs), Option.getD_some]
    rw [hdg, map_range_getD _ _ (hL0 ▸ hi)]
    rw [zip_map_norm]
  · intro q hWF hq
    rw [hok]
    have hp0q : p0 = q := hq p0 hp0
    have hzip : (p0 :: rest).zip (weights.map (fun w => w / weights.sum)) =
        (weights.map (fun w => w / weights.sum)).map (fun w => (q, w)) :=
      zip_const_left q hq (by simp [hwlen])
    have hnsum : (weights.map (fun w => w / weights.sum)).sum = 1 := by
      rw [sum_map_div, div_self hsum]
    have hone : ∀ c i, (((p0 :: rest).zip
        (weights.map (fun w => w / weights.sum))).map
          (fun pw => colVal pw.1.matrix c i * pw.2)).sum =
        colVal q.matrix c i := by
      intro c i
      rw [hzip, List.map_map]
      rw [show ((fun pw : PWM × ℚ => colVal pw.1.matrix c i * pw.2) ∘
          (fun w => (q, w))) = (fun w => colVal q.matrix c i * w) from rfl]
      rw [List.sum_map_mul_left]
      simp only [List.map_id']
      rw [hnsum, mul_one]
    have hcols : ∀ c ∈ q.alphabet, (List.range q.length).map
        (fun i => colVal q.matrix c i) = dcol q.matrix c := by
      intro c hc
      have hl := WF_dcol_length hWF hc
      rw [show (fun i => colVal q.matrix c i) =
          (fun i => (dcol q.matrix c).getD i 0) from rfl]
      rw [← hl]
      exact range_map_getD 0 (dcol q.matrix c)
    have hmat : q.alphabet.map (fun c =>
        (c, (List.range q.length).map (fun i => colVal q.matrix c i))) =
        q.matrix := by
      have hrec := map_dcol_eq_self hWF.1 hWF.2.1
      have hstep : q.alphabet.map (fun c =>
          (c, (List.range q.length).map (fun i => colVal q.matrix c i))) =
          q.alphabet.map (fun c => (c, dcol q.matrix c)) := by
        apply List.map_congr_left
        intro c hc
        rw [hcols c hc]
      rw [hstep, hrec]
    simp only [hone]
    rw [hp0q, hmat]

/-- C3 witness: two copies of the uniform PWM under weights (1, 3) combine
back to the uniform PWM itself. -/
theorem combine_pwms_convex_witness :
    combine_pwms [uniformPWM, uniformPWM] [1, 3] = .ok uniformPWM :=
  (combine_pwms_convex [uniformPWM, uniformPWM] [1, 3] 4 ['A', 'C', 'G', 'T']
      (by decide) (by decide) (by decide) (by decide)
      (by norm_num [List.sum_cons, List.sum_nil])).2
    uniformPWM (by decide) (by simp)

/-- C4 counterexample: a weights list shorter than the PWM list (two PWMs,
one weight) is claimed to fail, but `zip` silently truncates and the
combination succeeds. -/
theorem combine_pwms_count_mismatch_succeeds :
    combine_pwms [uniformPWM, uniformPWM] [(1 : ℚ)] = .ok uniformPWM := by
  simp only [combine_pwms]
  rw [if_pos (by decide), if_pos (by decide), if_neg (by simp)]
  norm_num [uniformPWM, colVal, dget, List.range_succ]

/-- C4 amended: `_combine_pwms` fails exactly when the PWM list is empty
(`pwms[0]` raises), the lengths differ, the alphabets differ, or the weights
list is non-empty with zero sum; a weights/PWM count mismatch alone never
fails (`zip` truncates silently, and an empty weight list skips the
division). -/
theorem combine_pwms_failure_iff (pwms : List PWM) (weights : List ℚ) :
    (∃ e, combine_pwms pwms weights = .error e) ↔
      (pwms = [] ∨
        (∃ p ∈ pwms, p.length ≠ (pwms.headD uniformPWM).length) ∨
        (∃ p ∈ pwms, p.alphabet ≠ (pwms.headD uniformPWM).alphabet) ∨
        (weights ≠ [] ∧ weights.sum = 0)) := by
  cases pwms with
  | nil =>
    exact iff_of_true ⟨.indexError, rfl⟩ (Or.inl rfl)
  | cons p0 rest =>
    simp only [combine_pwms, List.headD_cons]
    by_cases h1 : ((p0 :: rest).all fun p => p.length == p0.length) = true
    · rw [if_pos h1]
      by_cases h2 : ((p0 :: rest).all fun p => p.alphabet == p0.alphabet) = true
      · rw [if_pos h2]
        by_cases h3 : weights ≠ [] ∧ weights.sum = 0
        · rw [if_pos h3]
          exact iff_of_true ⟨.zeroDivisionError, rfl⟩
            (Or.inr (Or.inr (Or.inr h3)))
        · rw [if_neg h3]
          refine iff_of_false ?_ ?_
          · rintro ⟨e, he⟩; cases he
          · rw [List.all_eq_true] at h1 h2
            rintro ((h | h) | ⟨p, hp, hplen⟩ | ⟨p, hp, hpal⟩ | h)
            · exact hplen (beq_iff_eq.mp (h1 p hp))
            · exact hpal (beq_iff_eq.mp (h2 p hp))
            · exact h3 h
      · rw [if_neg h2]
        rw [List.all_eq_true] at h2
        push_neg at h2
        obtain ⟨p, hp, hpal⟩ := h2
        refine iff_of_true ⟨.assertionError, rfl⟩
          (Or.inr (Or.inr (Or.inl ⟨p, hp, fun hc => hpal (beq_iff_eq.mpr hc)⟩)))
    · rw [if_neg h1]
      rw [List.all_eq_true] at h1
      push_neg at h1
      obtain ⟨p, hp, hplen⟩ := h1
      refine iff_of_true ⟨.assertionError, rfl⟩
        (Or.inr (Or.inl ⟨p, hp, fun hc => hplen (beq_iff_eq.mpr hc)⟩))

/-- C8: multiplying every weight by one positive scalar leaves the combined
PWM unchanged — the normalization `w / sum(weights)` cancels the scale. -/
theorem combine_pwms_scale_invariant (pwms : List PWM) (weights : List ℚ)
    (k : ℚ) (hk : 0 < k) (hsum : weights.sum ≠ 0) :
    combine_pwms pwms (weights.map (fun w => k * w)) =
      combine_pwms pwms weights := by
  cases pwms with
  | nil => rfl
  | cons p0 rest =>
    have hksum : (weights.map (fun w => k * w)).sum = k * weights.sum := by
      rw [List.sum_map_mul_left]
      simp only [List.map_id']
    have hksum0 : k * weights.sum ≠ 0 := mul_ne_zero (ne_of_gt hk) hsum
    simp only [combine_pwms]
    rw [hksum]
    rw [if_neg (fun hc : _ ≠ [] ∧ k * weights.sum = 0 => hksum0 hc.2)]
    rw [if_neg (fun hc : weights ≠ [] ∧ weights.sum = 0 => hsum hc.2)]
    rw [List.map_map]
    rw [show ((fun w => w / (k * weights.sum)) ∘ (fun w => k * w)) =
        (fun w : ℚ => w / weights.sum) from
      funext fun w => mul_div_mul_left w weights.sum (ne_of_gt hk)]

/-- C8 witness: weights (1, 1) scaled by 10 — i.e. (10, 10) — give the same
combined PWM as (1, 1). -/
theorem combine_pwms_scale_invariant_witness :
    combine_pwms [uniformPWM, uniformPWM]
        (([1, 1] : List ℚ).map (fun w => 10 * w)) =
      combine_pwms [uniformPWM, uniformPWM] [1, 1] :=
  combine_pwms_scale_invariant [uniformPWM, uniformPWM] [1, 1] 10
    (by norm_num) (by norm_num)

/-! ### C5, C6: scoring and information content -/

theorem get?_eq_getD_of_lt {α : Type} (d : α) :
    ∀ (l : List α) (i : Nat), i < l.length → l.get? i = some (l.getD i d) := by
  intro l
  induction l with
  | nil => intro i hi; cases hi
  | cons a t ih =>
    intro i hi
    cases i with
    | zero => rfl
    | succ j => exact ih j (Nat.lt_of_succ_lt_succ hi)

theorem getD_map_of_lt {α β : Type} (f : α → β) (d : α) (d2 : β) :
    ∀ (l : List α) (i : Nat), i < l.length →
      (l.map f).getD i d2 = f (l.getD i d) := by
  intro l
  induction l with
  | nil => intro i hi; cases hi
  | cons a t ih =>
    intro i hi
    cases i with
    | zero => rfl
    | succ j => exact ih j (Nat.lt_of_succ_lt_succ hi)

theorem getD_mem_of_lt {α : Type} (d : α) :
    ∀ (l : List α) (i : Nat), i < l.length → l.getD i d ∈ l := by
  intro l
  induction l with
  | nil => intro i hi; cases hi
  | cons a t ih =>
    intro i hi
    cases i with
    | zero => exact List.mem_cons_self _ _
    | succ j => exact List.mem_cons_of_mem a (ih j (Nat.lt_of_succ_lt_succ hi))

theorem complChar_ok {c : Char} (hc : c ∈ (['A', 'C', 'G', 'T'] : List Char)) :
    complChar c = .ok (complD c) := by
  simp only [List.mem_cons, List.not_mem_nil, or_false] at hc
  rcases hc with rfl | rfl | rfl | rfl <;> rfl

theorem complD_mem {c : Char} (hc : c ∈ (['A', 'C', 'G', 'T'] : List Char)) :
    complD c ∈ (['A', 'C', 'G', 'T'] : List Char) := by
  simp only [List.mem_cons, List.not_mem_nil, or_false] at hc
  rcases hc with rfl | rfl | rfl | rfl <;> decide

theorem charAt_ok {seq : List Char} {i : Nat} (hi : i < seq.length) :
    charAt seq i = .ok (seq.getD i 'A') := by
  rw [charAt, get?_eq_getD_of_lt 'A' seq i hi]

theorem pssmAt_ok {m : BindingModel} (hWF : m.pwm.WF) {c : Char} {i : Nat}
    (hc : c ∈ m.pwm.alphabet) (hi : i < m.length) :
    m.pssmAt c i = .ok (m.pssmVal c i) := by
  have hdg : dget m.pssmMatrix c =
      some (((dget m.pwm.matrix c).getD []).map
        (fun (v : ℚ) => log2 ((v : ℝ) / (m.background c : ℝ)))) := by
    rw [BindingModel.pssmMatrix]
    exact dget_map_self _ hc
  have hl : (dcol m.pwm.matrix c).length = m.length := WF_dcol_length hWF hc
  have hget : (((dget m.pwm.matrix c).getD []).map
      (fun (v : ℚ) => log2 ((v : ℝ) / (m.background c : ℝ)))).get? i =
      some (m.pssmVal c i) := by
    rw [get?_eq_getD_of_lt (m.pssmVal c i)]
    · rw [getD_map_of_lt _ 0]
      · rfl
      · rw [show ((dget m.pwm.matrix c).getD []).length =
            (dcol m.pwm.matrix c).length from rfl, hl]
        exact hi
    · rw [List.length_map]
      rw [show ((dget m.pwm.matrix c).getD []).length =
          (dcol m.pwm.matrix c).length from rfl, hl]
      exact hi
  simp only [BindingModel.pssmAt, hdg, hget]

/-- C5: when the sequence has the model's length and all its symbols are in
{A,C,G,T}, `score_seq` returns exactly the sum over positions i of
`log2(2^pssm[seq[i]][i] + 2^pssm[complement_seq[i]][i])`, where the
complementary symbol is taken at the SAME position i — the complement string
is not reversed before pairing with the PSSM columns. -/
theorem score_seq_strand_sum (m : BindingModel) (seq : List Char)
    (hlen : m.length = seq.length) (hWF : m.pwm.WF)
    (hA : m.pwm.alphabet = ['A', 'C', 'G', 'T'])
    (hseq : ∀ c ∈ seq, c ∈ (['A', 'C', 'G', 'T'] : List Char)) :
    score_seq m seq = .ok (((List.range seq.length).map (fun i =>
      log2 ((2 : ℝ) ^ m.pssmVal (seq.getD i 'A') i +
        (2 : ℝ) ^ m.pssmVal (complD (seq.getD i 'A')) i))).sum) := by
  rw [score_seq, if_pos hlen]
  have hcompl : mapExcept complChar seq = .ok (seq.map complD) :=
    mapExcept_ok (fun c hc => complChar_ok (hseq c hc))
  rw [hcompl, except_bind_ok]
  have hterm : ∀ i ∈ List.range seq.length,
      ((charAt seq i).bind (fun a =>
        (charAt (seq.map complD) i).bind (fun b =>
          (m.pssmAt a i).bind (fun sa =>
            (m.pssmAt b i).map (fun sb =>
              log2 ((2 : ℝ) ^ sa + (2 : ℝ) ^ sb)))))) =
      .ok (log2 ((2 : ℝ) ^ m.pssmVal (seq.getD i 'A') i +
        (2 : ℝ) ^ m.pssmVal (complD (seq.getD i 'A')) i)) := by
    intro i hir
    have hi : i < seq.length := List.mem_range.mp hir
    have hgm : seq.getD i 'A' ∈ seq := getD_mem_of_lt 'A' seq i hi
    have hc4 : seq.getD i 'A' ∈ (['A', 'C', 'G', 'T'] : List Char) :=
      hseq _ hgm
    have hcm : (seq.map complD).getD i 'A' = complD (seq.getD i 'A') :=
      getD_map_of_lt complD 'A' 'A' seq i hi
    have hca : charAt seq i = .ok (seq.getD i 'A') := charAt_ok hi
    have hcb : charAt (seq.map complD) i = .ok (complD (seq.getD i 'A')) := by
      rw [charAt_ok (by rw [List.length_map]; exact hi), hcm]
    have hpa : m.pssmAt (seq.getD i 'A') i =
        .ok (m.pssmVal (seq.getD i 'A') i) :=
      pssmAt_ok hWF (by rw [hA]; exact hc4) (by rw [hlen]; exact hi)
    have hpb : m.pssmAt (complD (seq.getD i 'A')) i =
        .ok (m.pssmVal (complD (seq.getD i 'A')) i) :=
      pssmAt_ok hWF (by rw [hA]; exact complD_mem hc4) (by rw [hlen]; exact hi)
    rw [hca, except_bind_ok, hcb, except_bind_ok, hpa, except_bind_ok,
      hpb, except_map_ok]
  rw [mapExcept_ok hterm, except_map_ok]

/-- C5 witness: the uniform model scoring the sequence `ACGT`. -/
theorem score_seq_strand_sum_witness :
    score_seq uniformModel ['A', 'C', 'G', 'T'] =
      .ok (((List.range (['A', 'C', 'G', 'T'] : List Char).length).map (fun i =>
        log2 ((2 : ℝ) ^ uniformModel.pssmVal
            ((['A', 'C', 'G', 'T'] : List Char).getD i 'A') i +
          (2 : ℝ) ^ uniformModel.pssmVal
            (complD ((['A', 'C', 'G', 'T'] : List Char).getD i 'A')) i))).sum) :=
  score_seq_strand_sum uniformModel ['A', 'C', 'G', 'T'] (by decide) (by decide)
    (by decide) (by decide)

/-- C6: the information content is the arithmetic mean of all PSSM entries,
flattened over the alphabet × position grid. -/
theorem IC_flat_mean (m : BindingModel) (hWF : m.pwm.WF)
    (hbg : ∀ c ∈ m.pwm.alphabet, m.background c ≠ 0) :
    m.IC = ((m.pwm.alphabet.map (fun s =>
        ((List.range m.length).map (fun i => m.pssmVal s i)).sum)).sum) /
      ((m.pwm.alphabet.length : ℝ) * (m.length : ℝ)) := by
  have hsnd : m.pssmMatrix.map Prod.snd =
      m.pwm.alphabet.map (fun c => ((dget m.pwm.matrix c).getD []).map
        (fun (v : ℚ) => log2 ((v : ℝ) / (m.background c : ℝ)))) := by
    rw [BindingModel.pssmMatrix, List.map_map]
    rfl
  have hcols : ∀ c ∈ m.pwm.alphabet,
      ((dget m.pwm.matrix c).getD []).map
        (fun (v : ℚ) => log2 ((v : ℝ) / (m.background c : ℝ))) =
      (List.range m.length).map (fun i => m.pssmVal c i) := by
    intro c hc
    have hl : (dcol m.pwm.matrix c).length = m.length := WF_dcol_length hWF hc
    show (dcol m.pwm.matrix c).map
      (fun (v : ℚ) => log2 ((v : ℝ) / (m.background c : ℝ))) = _
    rw [← range_map_getD 0 (dcol m.pwm.matrix c), hl, List.map_map]
    rfl
  have hnum : (m.pssmMatrix.map Prod.snd).flatten.sum =
      (m.pwm.alphabet.map (fun s =>
        ((List.range m.length).map (fun i => m.pssmVal s i)).sum)).sum := by
    rw [hsnd, List.sum_flatten, List.map_map]
    apply congrArg List.sum
    apply List.map_congr_left
    intro c hc
    show (((dget m.pwm.matrix c).getD []).map
      (fun (v : ℚ) => log2 ((v : ℝ) / (m.background c : ℝ)))).sum = _
    rw [hcols c hc]
  have hlen2 : (m.pssmMatrix.map Prod.snd).flatten.length =
      m.pwm.alphabet.length * m.length := by
    rw [hsnd, List.length_flatten, List.map_map]
    have hmc : m.pwm.alphabet.map (List.length ∘ (fun c =>
        ((dget m.pwm.matrix c).getD []).map
          (fun (v : ℚ) => log2 ((v : ℝ) / (m.background c : ℝ))))) =
        m.pwm.alphabet.map (fun _ => m.length) := by
      apply List.map_congr_left
      intro c hc
      show (((dget m.pwm.matrix c).getD []).map
        (fun (v : ℚ) => log2 ((v : ℝ) / (m.background c : ℝ)))).length = _
      rw [List.length_map]
      exact WF_dcol_length hWF hc
    rw [hmc]
    simp [List.map_const', List.sum_replicate, smul_eq_mul, Nat.mul_comm]
  simp only [BindingModel.IC]
  rw [hnum, hlen2]
  push_cast
  ring

/-- C6 witness: the uniform model's IC equals its flat PSSM mean. -/
theorem IC_flat_mean_witness :
    uniformModel.IC = ((uniformModel.pwm.alphabet.map (fun s =>
        ((List.range uniformModel.length).map
          (fun i => uniformModel.pssmVal s i)).sum)).sum) /
      ((uniformModel.pwm.alphabet.length : ℝ) * (uniformModel.length : ℝ)) :=
  IC_flat_mean uniformModel (by decide)
    (by intro c hc; norm_num [uniformModel])

/-! ### C9: immutability of a constructed model

Every method of the Python class only reads `self`; none assigns a field
outside `__init__`.  The embedding makes this a frame property by giving
each operation in state-passing form: the returned second component is the
object state after the call. -/

/-- `model.pwm` with its post-call state. -/
def pwm_st (m : BindingModel) : PWM × BindingModel := (m.pwm, m)

/-- `model.length` with its post-call state. -/
def length_st (m : BindingModel) : Nat × BindingModel := (m.length, m)

/-- `model.pssm` with its post-call state. -/
noncomputable def pssm_st (m : BindingModel) :
    List (Char × List ℝ) × BindingModel := (m.pssmMatrix, m)

/-- `model.background` with its post-call state. -/
def background_st (m : BindingModel) : (Char → ℚ) × BindingModel :=
  (m.background, m)

/-- `model.IC` with its post-call state. -/
noncomputable def IC_st (m : BindingModel) : ℝ × BindingModel := (m.IC, m)

/-- `model.patser_threshold` with its post-call state: the method hands
`self.pssm` and the precision `10**3` to the external distribution
machinery (`pssm.distribution(precision).threshold_patser()`, abstracted
here as an arbitrary function of those two read-only inputs) and returns
its value. -/
noncomputable def patser_threshold_st
    (thresholdOfDistribution : List (Char × List ℝ) → Nat → ℝ)
    (m : BindingModel) : ℝ × BindingModel :=
  (thresholdOfDistribution m.pssmMatrix (10 ^ 3), m)

/-- `model.sites` with its post-call state. -/
def sites_st (m : BindingModel) : List (List Char) × BindingModel :=
  (m.sites, m)

/-- `model.score_seq(seq)` with its post-call state. -/
noncomputable def score_seq_st (m : BindingModel) (seq : List Char) :
    Except PyErr ℝ × BindingModel := (score_seq m seq, m)

/-- `model.self_score()` with its post-call state. -/
noncomputable def self_score_st (m : BindingModel) :
    Except PyErr (List ℝ) × BindingModel := (m.self_score, m)

/-- `model.bayesian_estimator(bg_scores, prior_m, alpha)` with its post-call
state. -/
noncomputable def bayesian_estimator_st (m : BindingModel)
    (bg_scores : List ℝ) (prior_m alpha : ℝ) :
    Except PyErr (List ℝ → ℝ) × BindingModel :=
  (bayesian_estimator m bg_scores prior_m alpha, m)

/-- Calling a returned estimator closure on scores, with the model's
post-call state (the closure captures only fitted numbers, never `self`). -/
noncomputable def estimator_call_st (alpha mu_m std_m mu_g std_g prior_m : ℝ)
    (scores : List ℝ) (m : BindingModel) : ℝ × BindingModel :=
  (estimator_fun alpha mu_m std_m mu_g std_g prior_m scores, m)

/-- C9: no operation of a constructed BindingModel — nor a returned
estimator — changes the object state: each state-passing operation returns
the model exactly as it received it, so `_pwm`, `_background` and
`_collection_set` are untouched. -/
theorem model_ops_immutable :
    ∀ (m : BindingModel) (seq : List Char) (bg_scores : List ℝ)
      (prior_m alpha mu_m std_m mu_g std_g : ℝ)
      (f : List (Char × List ℝ) → Nat → ℝ) (scores : List ℝ),
      (pwm_st m).2 = m ∧ (length_st m).2 = m ∧ (pssm_st m).2 = m ∧
      (background_st m).2 = m ∧ (IC_st m).2 = m ∧
      (patser_threshold_st f m).2 = m ∧ (sites_st m).2 = m ∧
      (score_seq_st m seq).2 = m ∧ (self_score_st m).2 = m ∧
      (bayesian_estimator_st m bg_scores prior_m alpha).2 = m ∧
      (estimator_call_st alpha mu_m std_m mu_g std_g prior_m scores m).2 = m :=
  fun _ _ _ _ _ _ _ _ _ _ _ =>
    ⟨rfl, rfl, rfl, rfl, rfl, rfl, rfl, rfl, rfl, rfl, rfl⟩
